import Mathlib

/-!
# Verification of the tetris-optimizer core

Shallow embedding of the Go packages `internal/tetromino`, `internal/grid`
and `internal/solver` of the tetris-optimizer repository, together with
theorems settling the specification claims about them.

Conventions of the embedding:
* Go `int` is modelled as `Int`; Go `rune` cell labels as `Char`.
* Go methods that mutate their receiver become functions returning the
  updated value.
* Go functions returning `(T, error)` become `Option T` (`none` = error).
* Go's `math.Ceil(math.Sqrt(float64 n))` on the small integer inputs the
  program uses is exact; it is modelled as the exact integer ceiling of
  the square root, computed from `Nat.sqrt`.
-/

namespace TetrisOpt

/-- `Point` from internal/tetromino/tetromino.go: an integer pair. -/
structure Point where
  x : Int
  y : Int
deriving DecidableEq, Repr

/-- `Point.Add` from tetromino.go: componentwise sum. -/
def Point.add (p q : Point) : Point := ⟨p.x + q.x, p.y + q.y⟩

/-- `Tetromino` from tetromino.go: label, local cells, bounding box and
current board position. -/
structure Tetromino where
  id : Char
  points : List Point
  width : Int
  height : Int
  position : Point
deriving DecidableEq, Repr

/-- Minimum x coordinate of a point list, as computed by the scan in
`normalizePoints` (starts from the head, folds `min` over the list). -/
def minX : List Point → Int
  | [] => 0
  | p :: ps => (p :: ps).foldl (fun m q => if q.x < m then q.x else m) p.x

/-- Minimum y coordinate of a point list, as in `normalizePoints`. -/
def minY : List Point → Int
  | [] => 0
  | p :: ps => (p :: ps).foldl (fun m q => if q.y < m then q.y else m) p.y

/-- `normalizePoints` from tetromino.go: shift all points so the minimum
x and minimum y become 0; the empty list is returned unchanged. -/
def normalizePoints (l : List Point) : List Point :=
  match l with
  | [] => []
  | _ :: _ => l.map (fun p => ⟨p.x - minX l, p.y - minY l⟩)

/-- The clockwise rotation `(x, y) ↦ (y, -x)` applied to a single point
inside `Rotate90` of tetromino.go. -/
def rotPoint (p : Point) : Point := ⟨p.y, -p.x⟩

/-- `Rotate90` from tetromino.go: rotate every cell, re-normalize, and
swap width and height.  The position is untouched. -/
def Rotate90 (t : Tetromino) : Tetromino :=
  { t with
    points := normalizePoints (t.points.map rotPoint)
    width := t.height
    height := t.width }

/-- The point comparison used by `sort.Slice` inside `ShapeKey` of
tetromino.go: by y ascending, ties by x ascending (non-strict form). -/
def pointLE (p q : Point) : Prop := p.y < q.y ∨ (p.y = q.y ∧ p.x ≤ q.x)

instance : DecidableRel pointLE := fun p q => by
  unfold pointLE; infer_instance

instance : IsTotal Point pointLE := by
  constructor; intro p q; unfold pointLE; omega

instance : IsTrans Point pointLE := by
  constructor; intro p q r hpq hqr; unfold pointLE at *; omega

/-- `ShapeKey` from tetromino.go: the cells sorted by (y, x) ascending,
rendered as comma-separated `x:y` pairs. -/
def ShapeKey (t : Tetromino) : String :=
  String.intercalate ","
    ((List.insertionSort pointLE t.points).map
      (fun p => toString p.x ++ ":" ++ toString p.y))

/-- `GetAbsolutePoints` from tetromino.go: each local cell translated by
the current position. -/
def GetAbsolutePoints (t : Tetromino) : List Point :=
  t.points.map (fun p => p.add t.position)

/-- `GenerateRotations` from tetromino.go, with the `i = 0,1,2,3` loop
unrolled.  The loop keeps a `seen` set of the shape keys already added;
since a key is added exactly when it is new, the membership test at step
`i` is equivalent to comparing against all earlier keys `k0..k(i-1)`
(if `k1` was not added then `k1 = k0`, and so on). -/
def GenerateRotations (t : Tetromino) : List Tetromino :=
  let c0 := t
  let c1 := Rotate90 c0
  let c2 := Rotate90 c1
  let c3 := Rotate90 c2
  let k0 := ShapeKey c0
  let k1 := ShapeKey c1
  let k2 := ShapeKey c2
  let k3 := ShapeKey c3
  c0 :: ((if k1 = k0 then [] else [c1]) ++
         (if k2 = k0 ∨ k2 = k1 then [] else [c2]) ++
         (if k3 = k0 ∨ k3 = k1 ∨ k3 = k2 then [] else [c3]))

/-- `Grid` from internal/grid: a size and the row-major cell matrix
(`'.'` = empty). -/
structure Grid where
  size : Int
  cells : List (List Char)
deriving DecidableEq, Repr

/-- `NewGrid` from grid.go: fails on non-positive size, otherwise an all
empty `size × size` matrix. -/
def NewGrid (size : Int) : Option Grid :=
  if size ≤ 0 then none
  else some ⟨size, List.replicate size.toNat (List.replicate size.toNat '.')⟩

/-- `IsValidPosition` from grid.go. -/
def IsValidPosition (g : Grid) (x y : Int) : Bool :=
  0 ≤ x && x < g.size && 0 ≤ y && y < g.size

/-- Reading a cell of the matrix: `cells[y][x]`, with `'.'` when the
index falls outside the stored lists (the Go code only reads indices
that exist). -/
def readI (cs : List (List Char)) (x y : Int) : Char :=
  if 0 ≤ x ∧ 0 ≤ y then (cs.getD y.toNat []).getD x.toNat '.' else '.'

/-- Writing a cell of the matrix: `cells[y][x] = c`; indices that do not
exist leave the matrix unchanged (the Go code only writes indices that
exist). -/
def writeI (cs : List (List Char)) (x y : Int) (c : Char) : List (List Char) :=
  if 0 ≤ x ∧ 0 ≤ y then cs.set y.toNat ((cs.getD y.toNat []).set x.toNat c) else cs

/-- `IsEmpty` from grid.go: bounds check, then compare the cell with `'.'`. -/
def IsEmpty (g : Grid) (x y : Int) : Bool :=
  if !(IsValidPosition g x y) then false else readI g.cells x y == '.'

/-- `CanPlaceTetromino` from grid.go: every translated cell must be in
bounds and empty. -/
def CanPlaceTetromino (g : Grid) (t : Tetromino) (x y : Int) : Bool :=
  t.points.all (fun p => IsValidPosition g (x + p.x) (y + p.y) &&
                         IsEmpty g (x + p.x) (y + p.y))

/-- `PlaceTetromino` from grid.go: error (`none`) when `CanPlaceTetromino`
fails; otherwise write the label into every translated cell and record
the anchor on the piece. -/
def PlaceTetromino (g : Grid) (t : Tetromino) (x y : Int) :
    Option (Grid × Tetromino) :=
  if CanPlaceTetromino g t x y then
    some ({ g with cells :=
              t.points.foldl (fun cs p => writeI cs (x + p.x) (y + p.y) t.id) g.cells },
          { t with position := ⟨x, y⟩ })
  else none

/-- `RemoveTetromino` from grid.go: clear every absolute cell of the piece
that is in bounds. -/
def RemoveTetromino (g : Grid) (t : Tetromino) : Grid :=
  let cs :=
    (GetAbsolutePoints t).foldl
      (fun cs p => if IsValidPosition g p.x p.y then writeI cs p.x p.y '.' else cs)
      g.cells
  { g with cells := cs }

/-- `CountEmpty` from grid.go (part_002): number of `'.'` cells, row by row. -/
def CountEmpty (g : Grid) : Nat :=
  (g.cells.map (fun row => row.count '.')).sum

/-- `GetCell` from grid.go (part_002): bounds-checked read. -/
def GetCell (g : Grid) (x y : Int) : Option Char :=
  if !(IsValidPosition g x y) then none else some (readI g.cells x y)

/-- `Result` from internal/solver: the board (absent for empty input),
the success flag and the attempted size. -/
structure Result where
  grid : Option Grid
  success : Bool
  size : Int
deriving DecidableEq, Repr

/-- The piece comparison used by `sort.Slice` inside `SolveTetris`
(part_003): bounding-box area descending, ties by width then height
descending (non-strict form of the Go `less` function). -/
def pieceLE (a b : Tetromino) : Prop :=
  a.width * a.height > b.width * b.height ∨
    (a.width * a.height = b.width * b.height ∧
      (a.width > b.width ∨ (a.width = b.width ∧ a.height ≥ b.height)))

instance : DecidableRel pieceLE := fun a b => by
  unfold pieceLE; infer_instance

instance : IsTotal Tetromino pieceLE := by
  constructor; intro a b; unfold pieceLE; omega

instance : IsTrans Tetromino pieceLE := by
  constructor; intro a b c hab hbc; unfold pieceLE at *; omega

/-- The sorting step of `SolveTetris` (part_003): pieces ordered by
`pieceLE` (largest bounding box first). -/
def sortTetrominoes (ts : List Tetromino) : List Tetromino :=
  List.insertionSort pieceLE ts

/-- The list of integers `0, 1, …, n-1` (empty when `n ≤ 0`): the values
taken by a Go loop variable running from 0 while `< n`. -/
def intRange (n : Int) : List Int :=
  (List.range n.toNat).map Int.ofNat

/-- The candidate placements tried by one level of `backtrack`
(solver.go): for each rotation, anchors scanned with y ascending outer
and x ascending inner, `0 ≤ y ≤ size - height`, `0 ≤ x ≤ size - width`. -/
def candidateList (size : Int) (rots : List Tetromino) :
    List (Tetromino × Int × Int) :=
  rots.flatMap (fun r =>
    (intRange (size - r.height + 1)).flatMap (fun y =>
      (intRange (size - r.width + 1)).map (fun x => (r, x, y))))

/-- The rotation/position scan of `backtrack` (solver.go): try each
candidate; on a successful placement recurse (`recur` is `backtrack` at
the next index); on failure of the recursion remove the piece and keep
scanning; a placement error means skip the candidate. -/
def tryCands (recur : Grid → Bool × Grid) :
    Grid → List (Tetromino × Int × Int) → Bool × Grid
  | g, [] => (false, g)
  | g, (r, x, y) :: cs =>
    if CanPlaceTetromino g r x y then
      match PlaceTetromino g r x y with
      | some (g1, r1) =>
        match recur g1 with
        | (true, g2) => (true, g2)
        | (false, g2) => tryCands recur (RemoveTetromino g2 r1) cs
      | none => tryCands recur g cs
    else tryCands recur g cs

/-- `backtrack` (solver.go) over the list of still-unplaced pieces:
all placed is success; otherwise generate the current piece's rotations
and scan all candidates. -/
def backtrackAux : List Tetromino → Grid → Bool × Grid
  | [], g => (true, g)
  | t :: rest, g =>
    tryCands (backtrackAux rest) g (candidateList g.size (GenerateRotations t))

/-- `backtrack(g, tetrominoes, index)` from solver.go: the remaining
pieces are those from `index` on. -/
def backtrack (g : Grid) (ts : List Tetromino) (index : Nat) : Bool × Grid :=
  backtrackAux (ts.drop index) g

/-- Exact integer ceiling of the square root: the model of
`int(math.Ceil(math.Sqrt(float64 n)))`. -/
def ceilSqrtNat (n : Nat) : Nat :=
  if Nat.sqrt n * Nat.sqrt n = n then Nat.sqrt n else Nat.sqrt n + 1

/-- `CalculateMinSquareSize` from part_003 (the version the repository's
tests pin down): `ceil(sqrt(4N))`, clamped to at least 1, and for a
single piece raised to at least its width and then its height. -/
def CalculateMinSquareSize (ts : List Tetromino) : Int :=
  if ts.isEmpty then 0
  else
    let totalBlocks := ts.length * 4
    let m0 : Int := (ceilSqrtNat totalBlocks : Int)
    let m1 : Int := if m0 < 1 then 1 else m0
    match ts with
    | [t] =>
      let m2 := if t.width > m1 then t.width else m1
      if t.height > m2 then t.height else m2
    | _ => m1

/-- `SolveTetris` from part_003: empty input gives an unsuccessful result
without a grid; otherwise create the grid (propagating the error), sort
the pieces largest-first and run the backtracking search. -/
def SolveTetris (ts : List Tetromino) (gridSize : Int) : Option Result :=
  if ts.isEmpty then some ⟨none, false, gridSize⟩
  else
    match NewGrid gridSize with
    | none => none
    | some g =>
      let res := backtrackAux (sortTetrominoes ts) g
      some ⟨some res.2, res.1, gridSize⟩

/-- The `for size := minSize; size <= minSize+4` loop of `SolveOptimal`
(solver.go): `none` = an attempt errored, `some (some r)` = first
successful attempt, `some none` = all attempts failed. -/
def solveLoop (ts : List Tetromino) : List Int → Option (Option Result)
  | [] => some none
  | s :: ss =>
    match SolveTetris ts s with
    | none => none
    | some r => if r.success then some (some r) else solveLoop ts ss

/-- `SolveOptimal` from solver.go: empty input short-circuits; otherwise
try sizes `minSize … minSize+4` and return the first success, falling
back to one final attempt at `minSize+4`. -/
def SolveOptimal (ts : List Tetromino) : Option Result :=
  if ts.isEmpty then some ⟨none, false, 0⟩
  else
    let m := CalculateMinSquareSize ts
    match solveLoop ts [m, m + 1, m + 2, m + 3, m + 4] with
    | none => none
    | some (some r) => some r
    | some none => SolveTetris ts (m + 4)

/-- The validation errors produced by `ValidateSolution` (solver.go). -/
inductive VError where
  | missingPiece (c : Char)
  | malformedPlacement (c : Char) (count : Nat)
  | extraPieces (found expected : Nat)
deriving DecidableEq, Repr

/-- Occurrence count of a label among the board's cells: the value the
`placedPieces` map of `ValidateSolution` holds for a non-`'.'` label. -/
def countLabel (g : Grid) (c : Char) : Nat :=
  (g.cells.map (fun row => row.count c)).sum

/-- Number of distinct non-empty labels on the board: the number of keys
of the `placedPieces` map. -/
def distinctLabels (g : Grid) : Nat :=
  ((g.cells.flatten.filter (fun c => c ≠ '.')).dedup).length

/-- The per-piece loop of `ValidateSolution`: a label is in the map iff
it is not `'.'` and occurs at least once; absence gives `missingPiece`,
a count other than 4 gives `malformedPlacement`. -/
def pieceErrors (g : Grid) : List Tetromino → Option VError
  | [] => none
  | t :: rest =>
    if t.id = '.' ∨ countLabel g t.id = 0 then some (.missingPiece t.id)
    else if countLabel g t.id ≠ 4 then some (.malformedPlacement t.id (countLabel g t.id))
    else pieceErrors g rest

/-- `ValidateSolution` from solver.go: check every piece in input order,
then compare the number of distinct labels with the number of pieces. -/
def ValidateSolution (g : Grid) (ts : List Tetromino) : Option VError :=
  match pieceErrors g ts with
  | some e => some e
  | none =>
    if distinctLabels g ≠ ts.length then
      some (.extraPieces (distinctLabels g) ts.length)
    else none

/-! ## Cell-matrix lemmas -/

/-- The coordinate `(x, y)` addresses an entry actually stored in the
matrix. -/
def inDims (cs : List (List Char)) (x y : Int) : Prop :=
  0 ≤ x ∧ 0 ≤ y ∧ y.toNat < cs.length ∧ x.toNat < (cs.getD y.toNat []).length

instance (cs : List (List Char)) (x y : Int) : Decidable (inDims cs x y) := by
  unfold inDims; infer_instance

theorem getD_set_outer (cs : List (List Char)) (j i : Nat) (r : List Char) :
    ((cs.set j r).getD i []) = if j = i ∧ j < cs.length then r else cs.getD i [] := by
  rw [List.getD_eq_getElem?_getD, List.getD_eq_getElem?_getD, List.getElem?_set]
  by_cases h : j = i
  · subst h
    by_cases h2 : j < cs.length
    · simp [h2]
    · simp [h2, List.getElem?_eq_none (le_of_not_lt h2)]
  · simp [h]

theorem getD_set_inner (r : List Char) (i k : Nat) (c : Char) :
    ((r.set i c).getD k '.') = if i = k ∧ i < r.length then c else r.getD k '.' := by
  rw [List.getD_eq_getElem?_getD, List.getD_eq_getElem?_getD, List.getElem?_set]
  by_cases h : i = k
  · subst h
    by_cases h2 : i < r.length
    · simp [h2]
    · simp [h2, List.getElem?_eq_none (le_of_not_lt h2)]
  · simp [h]

theorem length_writeI (cs : List (List Char)) (x y : Int) (c : Char) :
    (writeI cs x y c).length = cs.length := by
  unfold writeI; split <;> simp

theorem rowlen_writeI (cs : List (List Char)) (x y : Int) (c : Char) (j : Nat) :
    ((writeI cs x y c).getD j []).length = (cs.getD j []).length := by
  unfold writeI
  split
  · rw [getD_set_outer]
    split
    · next h => rw [← h.1]; simp
    · rfl
  · rfl

theorem readI_writeI (cs : List (List Char)) (x y a b : Int) (c : Char) :
    readI (writeI cs x y c) a b =
      if a = x ∧ b = y ∧ inDims cs x y then c else readI cs a b := by
  unfold readI writeI inDims
  by_cases hx : 0 ≤ x ∧ 0 ≤ y
  · rw [if_pos hx]
    by_cases ha : 0 ≤ a ∧ 0 ≤ b
    · rw [if_pos ha, if_pos ha]
      by_cases hby : b = y
      · subst hby
        rw [getD_set_outer]
        by_cases hlt : b.toNat < cs.length
        · rw [if_pos ⟨rfl, hlt⟩, getD_set_inner]
          by_cases hax : a = x
          · subst hax
            by_cases hrow : a.toNat < (cs.getD b.toNat []).length
            · rw [if_pos ⟨rfl, hrow⟩, if_pos ⟨rfl, rfl, hx.1, hx.2, hlt, hrow⟩]
            · rw [if_neg (by tauto), if_neg (by tauto)]
          · rw [if_neg (fun h => hax (by omega)), if_neg (by tauto)]
        · rw [if_neg (by tauto), if_neg (by tauto)]
      · rw [getD_set_outer, if_neg (fun h => hby (by omega)), if_neg (by tauto)]
    · rw [if_neg ha, if_neg ha,
        if_neg (fun h => ha ⟨by omega, by omega⟩)]
  · rw [if_neg hx]
    symm
    rw [if_neg (fun h => hx ⟨h.2.2.1, h.2.2.2.1⟩)]

theorem Point.mk_eq_iff (a b : Int) (p : Point) :
    (⟨a, b⟩ : Point) = p ↔ a = p.x ∧ b = p.y := by
  cases p; simp

/-- A guarded sequence of writes of the same character: the shape shared
by the cell-writing loops of `PlaceTetromino` and `RemoveTetromino`. -/
def foldWrite (v : Point → Bool) (c : Char) (cs : List (List Char)) :
    List Point → List (List Char)
  | [] => cs
  | p :: ps => foldWrite v c (if v p then writeI cs p.x p.y c else cs) ps

theorem foldWrite_eq_foldl (v : Point → Bool) (c : Char) (cs : List (List Char))
    (ps : List Point) :
    foldWrite v c cs ps =
      ps.foldl (fun cs p => if v p then writeI cs p.x p.y c else cs) cs := by
  induction ps generalizing cs with
  | nil => rfl
  | cons p ps ih => simp [foldWrite, ih]

theorem length_foldWrite (v : Point → Bool) (c : Char) (cs : List (List Char))
    (ps : List Point) : (foldWrite v c cs ps).length = cs.length := by
  induction ps generalizing cs with
  | nil => rfl
  | cons p ps ih =>
    unfold foldWrite
    rw [ih]
    split <;> simp [length_writeI]

theorem rowlen_foldWrite (v : Point → Bool) (c : Char) (cs : List (List Char))
    (ps : List Point) (j : Nat) :
    ((foldWrite v c cs ps).getD j []).length = ((cs.getD j []).length) := by
  induction ps generalizing cs with
  | nil => rfl
  | cons p ps ih =>
    unfold foldWrite
    rw [ih]
    split
    · rw [rowlen_writeI]
    · rfl

theorem inDims_foldWrite (v : Point → Bool) (c : Char) (cs : List (List Char))
    (ps : List Point) (a b : Int) :
    inDims (foldWrite v c cs ps) a b ↔ inDims cs a b := by
  unfold inDims
  rw [length_foldWrite, rowlen_foldWrite]

theorem readI_foldWrite (v : Point → Bool) (c : Char) (cs : List (List Char))
    (ps : List Point) (a b : Int) :
    readI (foldWrite v c cs ps) a b =
      if (⟨a, b⟩ : Point) ∈ ps ∧ v ⟨a, b⟩ = true ∧ inDims cs a b then c
      else readI cs a b := by
  induction ps generalizing cs with
  | nil => simp [foldWrite]
  | cons p ps ih =>
    unfold foldWrite
    rw [ih]
    by_cases hvp : v p = true
    · rw [if_pos hvp]
      have hdims : inDims (writeI cs p.x p.y c) a b ↔ inDims cs a b := by
        unfold inDims
        rw [length_writeI, rowlen_writeI]
      by_cases hpab : (⟨a, b⟩ : Point) = p
      · have hax : a = p.x := ((Point.mk_eq_iff a b p).1 hpab).1
        have hby : b = p.y := ((Point.mk_eq_iff a b p).1 hpab).2
        by_cases hd : inDims cs a b
        · have hv' : v ⟨a, b⟩ = true := by rw [hpab]; exact hvp
          by_cases hm : (⟨a, b⟩ : Point) ∈ ps
          · rw [if_pos ⟨hm, hv', hdims.2 hd⟩,
              if_pos ⟨List.mem_cons.2 (Or.inl hpab), hv', hd⟩]
          · rw [if_neg (fun h => hm h.1),
              readI_writeI, if_pos ⟨hax, hby, by rw [← hax, ← hby]; exact hd⟩,
              if_pos ⟨List.mem_cons.2 (Or.inl hpab), hv', hd⟩]
        · rw [if_neg (fun h => hd (hdims.1 h.2.2)), readI_writeI,
            if_neg (fun h => hd (by rw [hax, hby]; exact h.2.2)),
            if_neg (fun h => hd h.2.2)]
      · by_cases hrest : (⟨a, b⟩ : Point) ∈ ps ∧ v ⟨a, b⟩ = true ∧ inDims cs a b
        · rw [if_pos ⟨hrest.1, hrest.2.1, hdims.2 hrest.2.2⟩,
            if_pos ⟨List.mem_cons.2 (Or.inr hrest.1), hrest.2⟩]
        · rw [if_neg (fun h => hrest ⟨h.1, h.2.1, hdims.1 h.2.2⟩), readI_writeI,
            if_neg (fun h => hpab ((Point.mk_eq_iff a b p).2 ⟨h.1, h.2.1⟩)),
            if_neg (fun h => hrest ⟨(List.mem_cons.1 h.1).resolve_left hpab, h.2⟩)]
    · rw [if_neg hvp]
      by_cases hrest : (⟨a, b⟩ : Point) ∈ ps ∧ v ⟨a, b⟩ = true ∧ inDims cs a b
      · rw [if_pos hrest, if_pos ⟨List.mem_cons.2 (Or.inr hrest.1), hrest.2⟩]
      · rw [if_neg hrest,
          if_neg (fun h => by
            rcases List.mem_cons.1 h.1 with hp | hp
            · exact hvp (hp ▸ h.2.1)
            · exact hrest ⟨hp, h.2⟩)]

/-- Two cell matrices with the same shape and the same reads everywhere
are equal. -/
theorem matrix_ext (cs1 cs2 : List (List Char))
    (hlen : cs1.length = cs2.length)
    (hrow : ∀ j : Nat, (cs1.getD j []).length = (cs2.getD j []).length)
    (hread : ∀ a b : Nat, readI cs1 (Int.ofNat a) (Int.ofNat b) =
      readI cs2 (Int.ofNat a) (Int.ofNat b)) : cs1 = cs2 := by
  apply List.ext_getElem hlen
  intro j hj1 hj2
  have hg1 : cs1.getD j [] = cs1[j] := by
    rw [List.getD_eq_getElem?_getD, List.getElem?_eq_getElem hj1]; rfl
  have hg2 : cs2.getD j [] = cs2[j] := by
    rw [List.getD_eq_getElem?_getD, List.getElem?_eq_getElem hj2]; rfl
  apply List.ext_getElem (by rw [← hg1, ← hg2]; exact hrow j)
  intro a ha1 ha2
  have := hread a j
  unfold readI at this
  rw [if_pos ⟨Int.ofNat_nonneg a, Int.ofNat_nonneg j⟩,
    if_pos ⟨Int.ofNat_nonneg a, Int.ofNat_nonneg j⟩] at this
  have hta : ∀ n : Nat, (Int.ofNat n).toNat = n := fun n => rfl
  rw [hta a, hta j, hg1, hg2] at this
  rw [List.getD_eq_getElem?_getD, List.getElem?_eq_getElem ha1,
    List.getD_eq_getElem?_getD, List.getElem?_eq_getElem ha2] at this
  exact this

/-! ## Place / remove lemmas -/

theorem isValid_eq_of_size (g g' : Grid) (h : g'.size = g.size) (a b : Int) :
    IsValidPosition g' a b = IsValidPosition g a b := by
  unfold IsValidPosition; rw [h]

theorem canPlace_iff (g : Grid) (t : Tetromino) (x y : Int) :
    CanPlaceTetromino g t x y = true ↔
      ∀ p ∈ t.points, IsValidPosition g (x + p.x) (y + p.y) = true ∧
        readI g.cells (x + p.x) (y + p.y) = '.' := by
  unfold CanPlaceTetromino IsEmpty
  rw [List.all_eq_true]
  constructor
  · intro h p hp
    have := h p hp
    rw [Bool.and_eq_true] at this
    refine ⟨this.1, ?_⟩
    have h2 := this.2
    rw [this.1] at h2
    simpa using h2
  · intro h p hp
    rw [Bool.and_eq_true, (h p hp).1]
    refine ⟨rfl, ?_⟩
    simp [(h p hp).1, (h p hp).2]

/-- The absolute cells written by `PlaceTetromino g t x y`. -/
def placeTargets (t : Tetromino) (x y : Int) : List Point :=
  t.points.map (fun p => ⟨x + p.x, y + p.y⟩)

theorem place_eq (g : Grid) (t : Tetromino) (x y : Int) (g' : Grid) (t' : Tetromino)
    (h : PlaceTetromino g t x y = some (g', t')) :
    CanPlaceTetromino g t x y = true ∧
    g'.size = g.size ∧ t' = { t with position := ⟨x, y⟩ } ∧
    g'.cells = foldWrite (fun _ => true) t.id g.cells (placeTargets t x y) := by
  unfold PlaceTetromino at h
  split at h
  · next hcan =>
    injection h with h
    injection h with h1 h2
    subst h1; subst h2
    refine ⟨hcan, rfl, rfl, ?_⟩
    rw [foldWrite_eq_foldl]
    unfold placeTargets
    rw [List.foldl_map]
    simp
  · exact absurd h (by simp)

theorem remove_cells (g : Grid) (t : Tetromino) :
    (RemoveTetromino g t).cells =
      foldWrite (fun p => IsValidPosition g p.x p.y) '.' g.cells
        (GetAbsolutePoints t) := by
  unfold RemoveTetromino
  rw [foldWrite_eq_foldl]

theorem remove_size (g : Grid) (t : Tetromino) :
    (RemoveTetromino g t).size = g.size := rfl

theorem absPoints_of_placed (t : Tetromino) (x y : Int) :
    GetAbsolutePoints { t with position := ⟨x, y⟩ } = placeTargets t x y := by
  unfold GetAbsolutePoints placeTargets Point.add
  apply List.map_congr_left
  intro p _
  simp [add_comm]

/-- Placing a piece and immediately removing it restores the board
exactly: the shared helper behind several claims. -/
theorem place_remove_restore (g : Grid) (t : Tetromino) (x y : Int)
    (g' : Grid) (t' : Tetromino) (h : PlaceTetromino g t x y = some (g', t')) :
    RemoveTetromino g' t' = g := by
  obtain ⟨hcan, hsize, ht', hcells⟩ := place_eq g t x y g' t' h
  have habs : GetAbsolutePoints t' = placeTargets t x y := by
    rw [ht']; exact absPoints_of_placed t x y
  have htarget : ∀ a b : Int,
      (⟨a, b⟩ : Point) ∈ placeTargets t x y →
      IsValidPosition g a b = true ∧ readI g.cells a b = '.' := by
    intro a b hm
    rcases List.mem_map.1 hm with ⟨p, hp, he⟩
    have hax : x + p.x = a := congrArg Point.x he
    have hby : y + p.y = b := congrArg Point.y he
    rw [← hax, ← hby]
    exact (canPlace_iff g t x y).1 hcan p hp
  have hshape_len : g'.cells.length = g.cells.length := by
    rw [hcells, length_foldWrite]
  have hshape_row : ∀ j : Nat, (g'.cells.getD j []).length = (g.cells.getD j []).length := by
    intro j; rw [hcells, rowlen_foldWrite]
  have hdims : ∀ a b : Int, inDims g'.cells a b ↔ inDims g.cells a b := by
    intro a b
    unfold inDims
    rw [hshape_len, hshape_row]
  have hcells2 := remove_cells g' t'
  rw [habs] at hcells2
  have hvalid : ∀ a b : Int, IsValidPosition g' a b = IsValidPosition g a b :=
    isValid_eq_of_size g g' hsize
  cases g with
  | mk gsize gcells =>
    have hsize2 : (RemoveTetromino g' t').size = gsize := by
      rw [remove_size]; exact hsize
    have hc : (RemoveTetromino g' t').cells = gcells := by
      rw [hcells2]
      apply matrix_ext
      · rw [length_foldWrite]; exact hshape_len
      · intro j; rw [rowlen_foldWrite]; exact hshape_row j
      · intro a b
        rw [readI_foldWrite]
        by_cases hm : (⟨Int.ofNat a, Int.ofNat b⟩ : Point) ∈ placeTargets t x y
        · by_cases hd : inDims gcells (Int.ofNat a) (Int.ofNat b)
          · rw [if_pos ⟨hm, by rw [hvalid]; exact (htarget _ _ hm).1, (hdims _ _).2 hd⟩]
            exact ((htarget _ _ hm).2).symm
          · rw [if_neg (fun hcon => hd ((hdims _ _).1 hcon.2.2)), hcells,
              readI_foldWrite, if_neg (fun hcon => hd hcon.2.2)]
        · rw [if_neg (fun hcon => hm hcon.1), hcells,
            readI_foldWrite, if_neg (fun hcon => hm hcon.1)]
    cases hr : RemoveTetromino g' t' with
    | mk rsize rcells =>
      rw [hr] at hsize2 hc
      simp at hsize2 hc
      rw [hsize2, hc]

/-! ## Backtracking restoration -/

theorem tryCands_restore (recur : Grid → Bool × Grid)
    (hrec : ∀ g, (recur g).1 = false → (recur g).2 = g)
    (g : Grid) (cs : List (Tetromino × Int × Int))
    (h : (tryCands recur g cs).1 = false) : (tryCands recur g cs).2 = g := by
  induction cs generalizing g with
  | nil => rfl
  | cons c cs ih =>
    obtain ⟨r, x, y⟩ := c
    by_cases hcan : CanPlaceTetromino g r x y
    · cases hp : PlaceTetromino g r x y with
      | none =>
        simp only [tryCands, if_pos hcan, hp] at h ⊢
        exact ih g h
      | some pr =>
        obtain ⟨g1, r1⟩ := pr
        cases hr : recur g1 with
        | mk ok g2 =>
          cases ok with
          | true => simp [tryCands, if_pos hcan, hp, hr] at h
          | false =>
            have hg2 : g2 = g1 := by
              have := hrec g1 (by rw [hr])
              rw [hr] at this
              exact this
            have hrg : RemoveTetromino g2 r1 = g := by
              rw [hg2]
              exact place_remove_restore g r x y g1 r1 hp
            simp only [tryCands, if_pos hcan, hp, hr, hrg] at h ⊢
            exact ih g h
    · simp only [tryCands, if_neg hcan] at h ⊢
      exact ih g h

theorem backtrackAux_restore (ts : List Tetromino) (g : Grid)
    (h : (backtrackAux ts g).1 = false) : (backtrackAux ts g).2 = g := by
  induction ts generalizing g with
  | nil => simp [backtrackAux] at h
  | cons t rest ih =>
    simp only [backtrackAux] at h ⊢
    exact tryCands_restore (backtrackAux rest) (fun g' h' => ih g' h') g _ h

/-! ## Rotation algebra -/

/-- Translation of a point, used to relate `normalizePoints` to the
identity up to a shift. -/
def trP (vx vy : Int) (p : Point) : Point := ⟨p.x + vx, p.y + vy⟩

theorem foldl_minx_translate (l : List Point) (vx vy m : Int) :
    (l.map (trP vx vy)).foldl (fun m q => if q.x < m then q.x else m) (m + vx) =
      l.foldl (fun m q => if q.x < m then q.x else m) m + vx := by
  induction l generalizing m with
  | nil => rfl
  | cons p ps ih =>
    simp only [List.map_cons, List.foldl_cons, trP]
    have hstep : (if p.x + vx < m + vx then p.x + vx else m + vx) =
        (if p.x < m then p.x else m) + vx := by
      split

      · rw [if_pos (by omega)]
      · rw [if_neg (by omega)]
    rw [hstep]
    exact ih _

theorem foldl_miny_translate (l : List Point) (vx vy m : Int) :
    (l.map (trP vx vy)).foldl (fun m q => if q.y < m then q.y else m) (m + vy) =
      l.foldl (fun m q => if q.y < m then q.y else m) m + vy := by
  induction l generalizing m with
  | nil => rfl
  | cons p ps ih =>
    simp only [List.map_cons, List.foldl_cons, trP]
    have hstep : (if p.y + vy < m + vy then p.y + vy else m + vy) =
        (if p.y < m then p.y else m) + vy := by
      split
      · rw [if_pos (by omega)]
      · rw [if_neg (by omega)]
    rw [hstep]
    exact ih _

theorem minX_map_translate (l : List Point) (vx vy : Int) (h : l ≠ []) :
    minX (l.map (trP vx vy)) = minX l + vx := by
  cases l with
  | nil => exact absurd rfl h
  | cons p ps =>
    show ((p :: ps).map (trP vx vy)).foldl _ (p.x + vx) = _
    exact foldl_minx_translate (p :: ps) vx vy p.x

theorem minY_map_translate (l : List Point) (vx vy : Int) (h : l ≠ []) :
    minY (l.map (trP vx vy)) = minY l + vy := by
  cases l with
  | nil => exact absurd rfl h
  | cons p ps =>
    show ((p :: ps).map (trP vx vy)).foldl _ (p.y + vy) = _
    exact foldl_miny_translate (p :: ps) vx vy p.y

theorem normalizePoints_cons_eq (l : List Point) (h : l ≠ []) :
    normalizePoints l = l.map (fun p => ⟨p.x - minX l, p.y - minY l⟩) := by
  cases l with
  | nil => exact absurd rfl h
  | cons p ps => rfl

theorem normalizePoints_map_translate (l : List Point) (vx vy : Int) (h : l ≠ []) :
    normalizePoints (l.map (trP vx vy)) = normalizePoints l := by
  have hm : l.map (trP vx vy) ≠ [] := by
    intro hc
    exact h (List.map_eq_nil_iff.1 hc)
  rw [normalizePoints_cons_eq _ hm, normalizePoints_cons_eq _ h, List.map_map]
  apply List.map_congr_left
  intro q _
  simp only [Function.comp, trP]
  rw [minX_map_translate _ _ _ h, minY_map_translate _ _ _ h]
  congr 1 <;> omega

theorem normalizePoints_eq_translate (l : List Point) (h : l ≠ []) :
    normalizePoints l = l.map (trP (-minX l) (-minY l)) := by
  rw [normalizePoints_cons_eq _ h]
  apply List.map_congr_left
  intro q _
  unfold trP
  congr 1

theorem normalizePoints_of_normalized (l : List Point)
    (hx : minX l = 0) (hy : minY l = 0) : normalizePoints l = l := by
  cases l with
  | nil => rfl
  | cons p ps =>
    rw [normalizePoints_cons_eq _ (List.cons_ne_nil p ps), hx, hy]
    have hpt : ∀ q ∈ (p :: ps), (⟨q.x - 0, q.y - 0⟩ : Point) = id q := by
      intro q _
      cases q
      simp
    rw [List.map_congr_left hpt, List.map_id]

theorem map_rotPoint_translate (l : List Point) (vx vy : Int) :
    (l.map (trP vx vy)).map rotPoint = (l.map rotPoint).map (trP vy (-vx)) := by
  rw [List.map_map, List.map_map]
  apply List.map_congr_left
  intro q _
  simp only [Function.comp, trP, rotPoint]
  congr 1
  omega

theorem length_normalizePoints (l : List Point) :
    (normalizePoints l).length = l.length := by
  cases l with
  | nil => rfl
  | cons p ps => unfold normalizePoints; simp

theorem normalize_rot_normalize (l : List Point) (h : l ≠ []) :
    normalizePoints ((normalizePoints l).map rotPoint) =
      normalizePoints (l.map rotPoint) := by
  rw [normalizePoints_eq_translate l h, map_rotPoint_translate]
  apply normalizePoints_map_translate
  intro hc
  exact h (List.map_eq_nil_iff.1 hc)

theorem rot4_points (t : Tetromino) (h : t.points ≠ [])
    (hx : minX t.points = 0) (hy : minY t.points = 0) :
    (Rotate90 (Rotate90 (Rotate90 (Rotate90 t)))).points = t.points := by
  have hmapne : ∀ (f : Point → Point) (l : List Point), l ≠ [] → l.map f ≠ [] := by
    intro f l hl hc
    exact hl (List.map_eq_nil_iff.1 hc)
  show normalizePoints ((normalizePoints ((normalizePoints ((normalizePoints
      (t.points.map rotPoint)).map rotPoint)).map rotPoint)).map rotPoint) = t.points
  rw [normalize_rot_normalize _ (hmapne _ _ h),
    normalize_rot_normalize _ (hmapne _ _ (hmapne _ _ h)),
    normalize_rot_normalize _ (hmapne _ _ (hmapne _ _ (hmapne _ _ h)))]
  rw [List.map_map, List.map_map, List.map_map]
  have hid : ∀ q ∈ t.points,
      ((((rotPoint ∘ rotPoint) ∘ rotPoint) ∘ rotPoint)) q = id q := by
    intro q _
    cases q
    simp [Function.comp, rotPoint]
  rw [List.map_congr_left hid, List.map_id]
  exact normalizePoints_of_normalized t.points hx hy

theorem rotate90_points_length (t : Tetromino) :
    (Rotate90 t).points.length = t.points.length := by
  show (normalizePoints (t.points.map rotPoint)).length = _
  rw [length_normalizePoints, List.length_map]

/-! ## GenerateRotations structure -/

/-- Keep only the first occurrence of each element, in order: the
deduplication policy the spec describes for `generateRotations`. -/
def firstDedup : List String → List String
  | [] => []
  | k :: ks => k :: (firstDedup ks).filter (fun k2 => k2 ≠ k)

theorem generateRotations_sublist (t : Tetromino) :
    (GenerateRotations t).Sublist
      [t, Rotate90 t, Rotate90 (Rotate90 t), Rotate90 (Rotate90 (Rotate90 t))] := by
  show (t :: (_ ++ _ ++ _)).Sublist
    (t :: ([Rotate90 t] ++ [Rotate90 (Rotate90 t)] ++ [Rotate90 (Rotate90 (Rotate90 t))]))
  apply List.Sublist.cons₂
  apply List.Sublist.append
  · apply List.Sublist.append
    · split
      · exact List.nil_sublist _
      · exact List.Sublist.refl _
    · split
      · exact List.nil_sublist _
      · exact List.Sublist.refl _
  · split
    · exact List.nil_sublist _
    · exact List.Sublist.refl _

theorem generateRotations_length (t : Tetromino) :
    1 ≤ (GenerateRotations t).length ∧ (GenerateRotations t).length ≤ 4 := by
  show 1 ≤ (t :: (_ ++ _ ++ _)).length ∧ (t :: (_ ++ _ ++ _)).length ≤ 4
  simp only [List.length_cons, List.length_append]
  constructor
  · omega
  · split <;> split <;> split <;> simp

theorem generateRotations_mem (t r : Tetromino) (hr : r ∈ GenerateRotations t) :
    r = t ∨ r = Rotate90 t ∨ r = Rotate90 (Rotate90 t) ∨
      r = Rotate90 (Rotate90 (Rotate90 t)) := by
  have := (generateRotations_sublist t).subset hr
  simpa using this

theorem generateRotations_keys (t : Tetromino) :
    (GenerateRotations t).map ShapeKey =
      firstDedup [ShapeKey t, ShapeKey (Rotate90 t),
        ShapeKey (Rotate90 (Rotate90 t)),
        ShapeKey (Rotate90 (Rotate90 (Rotate90 t)))] := by
  by_cases h1 : ShapeKey (Rotate90 t) = ShapeKey t <;>
    by_cases h2 : ShapeKey (Rotate90 (Rotate90 t)) = ShapeKey t <;>
    by_cases h3 : ShapeKey (Rotate90 (Rotate90 t)) = ShapeKey (Rotate90 t) <;>
    by_cases h4 : ShapeKey (Rotate90 (Rotate90 (Rotate90 t))) = ShapeKey t <;>
    by_cases h5 : ShapeKey (Rotate90 (Rotate90 (Rotate90 t))) = ShapeKey (Rotate90 t) <;>
    by_cases h6 : ShapeKey (Rotate90 (Rotate90 (Rotate90 t))) =
      ShapeKey (Rotate90 (Rotate90 t)) <;>
    simp [GenerateRotations, firstDedup, h1, h2, h3, h4, h5, h6]

/-! ## Minimum square size -/

theorem ceilSqrtNat_spec (n : Nat) :
    n ≤ ceilSqrtNat n * ceilSqrtNat n ∧
      ∀ m : Nat, m < ceilSqrtNat n → m * m < n := by
  have h1 : Nat.sqrt n * Nat.sqrt n ≤ n := by
    have := Nat.sqrt_le' n
    rwa [pow_two] at this
  have h2 : n < (Nat.sqrt n + 1) * (Nat.sqrt n + 1) := by
    have := Nat.lt_succ_sqrt' n
    rwa [pow_two] at this
  unfold ceilSqrtNat
  by_cases he : Nat.sqrt n * Nat.sqrt n = n
  · rw [if_pos he]
    refine ⟨by omega, ?_⟩
    intro m hm
    have hle : m * m ≤ Nat.sqrt n * Nat.sqrt n := Nat.mul_le_mul (by omega) (by omega)
    have hne : m * m ≠ Nat.sqrt n * Nat.sqrt n := by
      intro hc
      nlinarith
    omega
  · rw [if_neg he]
    refine ⟨by omega, ?_⟩
    intro m hm
    have hle : m * m ≤ Nat.sqrt n * Nat.sqrt n := Nat.mul_le_mul (by omega) (by omega)
    omega

theorem ceilSqrtNat_unique (n k : Nat) (hk : n ≤ k * k)
    (hk2 : ∀ m, m < k → m * m < n) : ceilSqrtNat n = k := by
  obtain ⟨h1, h2⟩ := ceilSqrtNat_spec n
  rcases Nat.lt_trichotomy (ceilSqrtNat n) k with h | h | h
  · have := hk2 _ h
    omega
  · exact h
  · have := h2 k h
    omega

theorem ceilSqrtNat_four : ceilSqrtNat 4 = 2 :=
  ceilSqrtNat_unique 4 2 (by omega) (fun m hm => by interval_cases m <;> omega)

theorem ceilSqrtNat_pos (n : Nat) (h : 1 ≤ n) : 1 ≤ ceilSqrtNat n := by
  obtain ⟨h1, _⟩ := ceilSqrtNat_spec n
  by_contra hc
  have h0 : ceilSqrtNat n = 0 := by omega
  rw [h0] at h1
  omega

theorem calcMinSize_single (t : Tetromino) :
    CalculateMinSquareSize [t] = max (max 2 t.width) t.height := by
  unfold CalculateMinSquareSize
  simp only [List.isEmpty_cons, List.length_cons, List.length_nil]
  norm_num [ceilSqrtNat_four]
  omega

theorem calcMinSize_many (t1 t2 : Tetromino) (rest : List Tetromino) :
    CalculateMinSquareSize (t1 :: t2 :: rest) =
      ((ceilSqrtNat ((t1 :: t2 :: rest).length * 4) : Nat) : Int) := by
  unfold CalculateMinSquareSize
  have hge : 1 ≤ ceilSqrtNat ((t1 :: t2 :: rest).length * 4) :=
    ceilSqrtNat_pos _ (by simp only [List.length_cons]; omega)
  simp only [List.isEmpty_cons, Bool.false_eq_true, if_false]
  rw [if_neg (by omega)]

theorem calcMinSize_ge_one (ts : List Tetromino) (h : ts ≠ []) :
    1 ≤ CalculateMinSquareSize ts := by
  cases ts with
  | nil => exact absurd rfl h
  | cons t rest =>
    cases rest with
    | nil =>
      rw [calcMinSize_single]
      omega
    | cons t2 rest2 =>
      rw [calcMinSize_many]
      have hge : 1 ≤ ceilSqrtNat ((t :: t2 :: rest2).length * 4) :=
        ceilSqrtNat_pos _ (by simp only [List.length_cons]; omega)
      omega

/-! ## SolveTetris / validation support -/

theorem solveTetris_exists (ts : List Tetromino) (h : ts ≠ []) (s : Int)
    (hs : 1 ≤ s) : ∃ r : Result, SolveTetris ts s = some r ∧ r.size = s := by
  unfold SolveTetris
  rw [if_neg (by simp [List.isEmpty_iff, h])]
  unfold NewGrid
  rw [if_neg (by omega)]
  exact ⟨_, rfl, rfl⟩

theorem pieceErrors_none_iff (g : Grid) (ts : List Tetromino) :
    pieceErrors g ts = none ↔ ∀ t ∈ ts, t.id ≠ '.' ∧ countLabel g t.id = 4 := by
  induction ts with
  | nil => simp [pieceErrors]
  | cons t rest ih =>
    unfold pieceErrors
    by_cases h1 : t.id = '.' ∨ countLabel g t.id = 0
    · rw [if_pos h1]
      constructor
      · intro hc
        exact Option.noConfusion hc
      · intro hall
        exfalso
        rcases h1 with h1 | h1
        · exact (hall t (by simp)).1 h1
        · have := (hall t (by simp)).2
          omega
    · rw [if_neg h1]
      push_neg at h1
      by_cases h2 : countLabel g t.id ≠ 4
      · rw [if_pos h2]
        constructor
        · intro hc
          exact Option.noConfusion hc
        · intro hall
          exact absurd (hall t (by simp)).2 h2
      · rw [if_neg h2]
        push_neg at h2
        rw [ih]
        constructor
        · intro hall t' ht'
          rcases List.mem_cons.1 ht' with rfl | ht'
          · exact ⟨h1.1, h2⟩
          · exact hall t' ht'
        · intro hall t' ht'
          exact hall t' (List.mem_cons_of_mem _ ht')

theorem pieceErrors_missing_sound (g : Grid) (ts : List Tetromino) (c : Char)
    (h : pieceErrors g ts = some (VError.missingPiece c)) :
    ∃ t ∈ ts, t.id = c ∧ (c = '.' ∨ countLabel g c = 0) := by
  induction ts with
  | nil => exact Option.noConfusion h
  | cons t rest ih =>
    unfold pieceErrors at h
    by_cases h1 : t.id = '.' ∨ countLabel g t.id = 0
    · rw [if_pos h1] at h
      simp only [Option.some.injEq, VError.missingPiece.injEq] at h
      exact ⟨t, by simp, h, h ▸ h1⟩
    · rw [if_neg h1] at h
      by_cases h2 : countLabel g t.id ≠ 4
      · rw [if_pos h2] at h
        simp at h
      · rw [if_neg h2] at h
        obtain ⟨t', ht', hrest⟩ := ih h
        exact ⟨t', List.mem_cons_of_mem _ ht', hrest⟩

theorem pieceErrors_malformed_sound (g : Grid) (ts : List Tetromino)
    (c : Char) (n : Nat)
    (h : pieceErrors g ts = some (VError.malformedPlacement c n)) :
    ∃ t ∈ ts, t.id = c ∧ countLabel g c = n ∧ n ≠ 4 ∧ n ≠ 0 ∧ c ≠ '.' := by
  induction ts with
  | nil => exact Option.noConfusion h
  | cons t rest ih =>
    unfold pieceErrors at h
    by_cases h1 : t.id = '.' ∨ countLabel g t.id = 0
    · rw [if_pos h1] at h
      simp at h
    · rw [if_neg h1] at h
      push_neg at h1
      by_cases h2 : countLabel g t.id ≠ 4
      · rw [if_pos h2] at h
        simp only [Option.some.injEq, VError.malformedPlacement.injEq] at h
        refine ⟨t, by simp, h.1, ?_, ?_, ?_, ?_⟩
        · rw [← h.1]; exact h.2
        · rw [← h.2]; exact h2
        · rw [← h.2]; exact h1.2
        · rw [← h.1]; exact h1.1
      · rw [if_neg h2] at h
        obtain ⟨t', ht', hrest⟩ := ih h
        exact ⟨t', List.mem_cons_of_mem _ ht', hrest⟩

theorem pieceErrors_no_extra (g : Grid) (ts : List Tetromino) (a b : Nat) :
    pieceErrors g ts ≠ some (VError.extraPieces a b) := by
  induction ts with
  | nil => exact fun hc => Option.noConfusion hc
  | cons t rest ih =>
    unfold pieceErrors
    by_cases h1 : t.id = '.' ∨ countLabel g t.id = 0
    · rw [if_pos h1]
      simp
    · rw [if_neg h1]
      by_cases h2 : countLabel g t.id ≠ 4
      · rw [if_pos h2]
        simp
      · rw [if_neg h2]
        exact ih

theorem validate_none_iff (g : Grid) (ts : List Tetromino) :
    ValidateSolution g ts = none ↔
      ((∀ t ∈ ts, t.id ≠ '.' ∧ countLabel g t.id = 4) ∧
        distinctLabels g = ts.length) := by
  unfold ValidateSolution
  cases hpe : pieceErrors g ts with
  | some e =>
    constructor
    · intro hc
      exact Option.noConfusion hc
    · rintro ⟨hall, _⟩
      have hn := (pieceErrors_none_iff g ts).2 hall
      rw [hpe] at hn
      exact Option.noConfusion hn
  | none =>
    show (if distinctLabels g ≠ ts.length then _ else none) = none ↔ _
    by_cases hd : distinctLabels g ≠ ts.length
    · rw [if_pos hd]
      constructor
      · intro hc
        exact Option.noConfusion hc
      · rintro ⟨_, hdd⟩
        exact absurd hdd hd
    · rw [if_neg hd]
      push_neg at hd
      simp only [true_iff]
      exact ⟨(pieceErrors_none_iff g ts).1 hpe, hd⟩

theorem validate_missing_sound (g : Grid) (ts : List Tetromino) (c : Char)
    (h : ValidateSolution g ts = some (VError.missingPiece c)) :
    ∃ t ∈ ts, t.id = c ∧ (c = '.' ∨ countLabel g c = 0) := by
  unfold ValidateSolution at h
  cases hpe : pieceErrors g ts with
  | some e =>
    rw [hpe] at h
    simp only [Option.some.injEq] at h
    rw [h] at hpe
    exact pieceErrors_missing_sound g ts c hpe
  | none =>
    rw [hpe] at h
    dsimp only at h
    split at h
    · simp at h
    · exact Option.noConfusion h

theorem validate_malformed_sound (g : Grid) (ts : List Tetromino)
    (c : Char) (n : Nat)
    (h : ValidateSolution g ts = some (VError.malformedPlacement c n)) :
    ∃ t ∈ ts, t.id = c ∧ countLabel g c = n ∧ n ≠ 4 ∧ n ≠ 0 ∧ c ≠ '.' := by
  unfold ValidateSolution at h
  cases hpe : pieceErrors g ts with
  | some e =>
    rw [hpe] at h
    simp only [Option.some.injEq] at h
    rw [h] at hpe
    exact pieceErrors_malformed_sound g ts c n hpe
  | none =>
    rw [hpe] at h
    dsimp only at h
    split at h
    · simp at h
    · exact Option.noConfusion h

theorem validate_extra_sound (g : Grid) (ts : List Tetromino) (a b : Nat)
    (h : ValidateSolution g ts = some (VError.extraPieces a b)) :
    a = distinctLabels g ∧ b = ts.length ∧ a ≠ b ∧
      ∀ t ∈ ts, t.id ≠ '.' ∧ countLabel g t.id = 4 := by
  unfold ValidateSolution at h
  cases hpe : pieceErrors g ts with
  | some e =>
    rw [hpe] at h
    simp only [Option.some.injEq] at h
    rw [h] at hpe
    exact absurd hpe (pieceErrors_no_extra g ts a b)
  | none =>
    rw [hpe] at h
    dsimp only at h
    split at h
    · next hd =>
      simp only [Option.some.injEq, VError.extraPieces.injEq] at h
      exact ⟨h.1.symm, h.2.symm, by omega, (pieceErrors_none_iff g ts).1 hpe⟩
    · exact Option.noConfusion h

/-! ## Pruning: instrumented and spec-modelled variants -/

/-- Well-formed grid: the stored matrix really is `size` rows of `size`
cells (the shape `NewGrid` establishes). -/
def WF (g : Grid) : Prop :=
  g.cells.length = g.size.toNat ∧
    ∀ j < g.cells.length, (g.cells.getD j []).length = g.size.toNat

instance (g : Grid) : Decidable (WF g) := by
  unfold WF; infer_instance

/-- A piece as the parser produces it: exactly 4 distinct cells and a
real (non-filler) label. -/
def goodPiece (t : Tetromino) : Prop :=
  t.points.length = 4 ∧ t.points.Nodup ∧ t.id ≠ '.'

instance (t : Tetromino) : Decidable (goodPiece t) := by
  unfold goodPiece; infer_instance

/-- Instrumented variant of `tryCands`: the extra boolean reports whether
some recursive call was entered from a placement at which the spec's
pruning condition `countEmpty() - 4 < remainingPieces * 4` held
(`remaining` is the number of pieces after the current one). -/
def tryCandsT (recur : Grid → Bool × Grid × Bool) (remaining : Nat) :
    Grid → List (Tetromino × Int × Int) → Bool × Grid × Bool
  | g, [] => (false, g, false)
  | g, (r, x, y) :: cs =>
    if CanPlaceTetromino g r x y then
      match PlaceTetromino g r x y with
      | some (g1, r1) =>
        let fires : Bool := decide ((CountEmpty g : Int) - 4 < (remaining : Int) * 4)
        match recur g1 with
        | (true, g2, f2) => (true, g2, fires || f2)
        | (false, g2, f2) =>
          let rest := tryCandsT recur remaining (RemoveTetromino g2 r1) cs
          (rest.1, rest.2.1, fires || f2 || rest.2.2)
      | none => tryCandsT recur remaining g cs
    else tryCandsT recur remaining g cs

/-- Instrumented variant of `backtrackAux` (same search, plus the
recursed-where-prune-condition-held flag). -/
def backtrackAuxT : List Tetromino → Grid → Bool × Grid × Bool
  | [], g => (true, g, false)
  | t :: rest, g =>
    tryCandsT (backtrackAuxT rest) rest.length g
      (candidateList g.size (GenerateRotations t))

/-- Modelled from the spec: the missing pruned `backtrack` the spec
describes (§4.3) — before recursing into a tentative placement, compute
`remainingPieces = N - i - 1` and `emptyCellsAfterThisPlacement =
countEmpty() - 4`, and skip the placement without recursing when
`emptyCellsAfterThisPlacement < remainingPieces * 4`. -/
def tryCandsP (recur : Grid → Bool × Grid) (remaining : Nat) :
    Grid → List (Tetromino × Int × Int) → Bool × Grid
  | g, [] => (false, g)
  | g, (r, x, y) :: cs =>
    if CanPlaceTetromino g r x y then
      if (CountEmpty g : Int) - 4 < (remaining : Int) * 4 then
        tryCandsP recur remaining g cs
      else
        match PlaceTetromino g r x y with
        | some (g1, r1) =>
          match recur g1 with
          | (true, g2) => (true, g2)
          | (false, g2) => tryCandsP recur remaining (RemoveTetromino g2 r1) cs
        | none => tryCandsP recur remaining g cs
    else tryCandsP recur remaining g cs

/-- Modelled from the spec: `backtrack` with the §4.3 pruning rule. -/
def backtrackAuxP : List Tetromino → Grid → Bool × Grid
  | [], g => (true, g)
  | t :: rest, g =>
    tryCandsP (backtrackAuxP rest) rest.length g
      (candidateList g.size (GenerateRotations t))

theorem place_of_canPlace (g : Grid) (t : Tetromino) (x y : Int)
    (h : CanPlaceTetromino g t x y = true) :
    PlaceTetromino g t x y =
      some ({ g with cells :=
                t.points.foldl (fun cs p => writeI cs (x + p.x) (y + p.y) t.id) g.cells },
            { t with position := ⟨x, y⟩ }) := by
  unfold PlaceTetromino
  rw [if_pos h]

theorem WF_place (g : Grid) (t : Tetromino) (x y : Int) (g' : Grid)
    (t' : Tetromino) (h : PlaceTetromino g t x y = some (g', t'))
    (hWF : WF g) : WF g' := by
  obtain ⟨_, hsize, _, hcells⟩ := place_eq g t x y g' t' h
  constructor
  · rw [hcells, length_foldWrite, hsize]
    exact hWF.1
  · intro j hj
    rw [hcells, rowlen_foldWrite, hsize]
    rw [hcells, length_foldWrite] at hj
    exact hWF.2 j hj

theorem WF_remove (g : Grid) (t : Tetromino) (hWF : WF g) :
    WF (RemoveTetromino g t) := by
  constructor
  · rw [remove_cells, length_foldWrite, remove_size]
    exact hWF.1
  · intro j hj
    rw [remove_cells, rowlen_foldWrite, remove_size]
    rw [remove_cells, length_foldWrite] at hj
    exact hWF.2 j hj

theorem inDims_of_valid (g : Grid) (hWF : WF g) (a b : Int)
    (hv : IsValidPosition g a b = true) : inDims g.cells a b := by
  unfold IsValidPosition at hv
  simp only [Bool.and_eq_true, decide_eq_true_eq] at hv
  refine ⟨hv.1.1.1, hv.1.2, ?_, ?_⟩
  · rw [hWF.1]; omega
  · rw [hWF.2 b.toNat (by rw [hWF.1]; omega)]; omega

theorem count_set_dot_to_label (row : List Char) (i : Nat) (c : Char)
    (hi : i < row.length) (hdot : row.getD i '.' = '.') (hc : c ≠ '.') :
    (row.set i c).count '.' + 1 = row.count '.' := by
  induction row generalizing i with
  | nil => simp at hi
  | cons a row ih =>
    cases i with
    | zero =>
      have ha : a = '.' := hdot
      simp [List.count_cons, ha, hc]
    | succ i =>
      have hi' : i < row.length := by simpa using hi
      have hdot' : row.getD i '.' = '.' := hdot
      have := ih i hi' hdot'
      simp only [List.set_cons_succ, List.count_cons]
      omega

theorem sum_map_set (cs : List (List Char)) (j : Nat) (r : List Char)
    (hj : j < cs.length) :
    ((cs.set j r).map (fun row => row.count '.')).sum + (cs.getD j []).count '.' =
      (cs.map (fun row => row.count '.')).sum + r.count '.' := by
  induction cs generalizing j with
  | nil => simp at hj
  | cons a cs ih =>
    cases j with
    | zero =>
      simp only [List.set_cons_zero, List.map_cons, List.sum_cons, List.getD_cons_zero]
      omega
    | succ j =>
      have hj' : j < cs.length := by simpa using hj
      have := ih j hj'
      simp only [List.set_cons_succ, List.map_cons, List.sum_cons, List.getD_cons_succ]
      omega

theorem countDots_writeI (cs : List (List Char)) (x y : Int) (c : Char)
    (hin : inDims cs x y) (hdot : readI cs x y = '.') (hc : c ≠ '.') :
    ((writeI cs x y c).map (fun row => row.count '.')).sum + 1 =
      (cs.map (fun row => row.count '.')).sum := by
  obtain ⟨hx, hy, hj, hi⟩ := hin
  unfold writeI
  rw [if_pos ⟨hx, hy⟩]
  have h1 := sum_map_set cs y.toNat ((cs.getD y.toNat []).set x.toNat c) hj
  have h2 : ((cs.getD y.toNat []).set x.toNat c).count '.' + 1 =
      (cs.getD y.toNat []).count '.' := by
    apply count_set_dot_to_label _ _ _ hi _ hc
    unfold readI at hdot
    rw [if_pos ⟨hx, hy⟩] at hdot
    exact hdot
  omega

theorem countDots_foldWrite (c : Char) (hc : c ≠ '.') (cs : List (List Char))
    (ps : List Point) (hnd : ps.Nodup)
    (hall : ∀ p ∈ ps, inDims cs p.x p.y ∧ readI cs p.x p.y = '.') :
    ((foldWrite (fun _ => true) c cs ps).map (fun row => row.count '.')).sum
        + ps.length =
      (cs.map (fun row => row.count '.')).sum := by
  induction ps generalizing cs with
  | nil => simp [foldWrite]
  | cons p ps ih =>
    show ((foldWrite _ c (writeI cs p.x p.y c) ps).map _).sum + (ps.length + 1) = _
    have hdims : ∀ a b : Int,
        inDims (writeI cs p.x p.y c) a b ↔ inDims cs a b := by
      intro a b
      unfold inDims
      rw [length_writeI, rowlen_writeI]
    have hall' : ∀ q ∈ ps, inDims (writeI cs p.x p.y c) q.x q.y ∧
        readI (writeI cs p.x p.y c) q.x q.y = '.' := by
      intro q hq
      have hqne : q ≠ p := by
        intro hqp
        rw [hqp] at hq
        exact (List.nodup_cons.1 hnd).1 hq
      refine ⟨(hdims q.x q.y).2 (hall q (List.mem_cons_of_mem _ hq)).1, ?_⟩
      rw [readI_writeI,
        if_neg (fun hcon => hqne (by
          cases q
          cases p
          simp only [Point.mk.injEq]
          exact ⟨hcon.1, hcon.2.1⟩))]
      exact (hall q (List.mem_cons_of_mem _ hq)).2
    have hstep := countDots_writeI cs p.x p.y c
      (hall p (List.mem_cons_self p ps)).1 (hall p (List.mem_cons_self p ps)).2 hc
    have := ih (writeI cs p.x p.y c) (List.nodup_cons.1 hnd).2 hall'
    omega

theorem placeTargets_length (t : Tetromino) (x y : Int) :
    (placeTargets t x y).length = t.points.length := by
  unfold placeTargets
  exact List.length_map _ _

theorem placeTargets_nodup (t : Tetromino) (x y : Int)
    (hnd : t.points.Nodup) : (placeTargets t x y).Nodup := by
  unfold placeTargets
  apply List.Nodup.map _ hnd
  intro a b hab
  cases a
  cases b
  simp only [Point.mk.injEq] at hab ⊢
  omega

theorem countEmpty_place (g : Grid) (t : Tetromino) (x y : Int) (g' : Grid)
    (t' : Tetromino) (hWF : WF g) (hnd : t.points.Nodup) (hid : t.id ≠ '.')
    (h : PlaceTetromino g t x y = some (g', t')) :
    CountEmpty g' + t.points.length = CountEmpty g := by
  obtain ⟨hcan, hsize, ht', hcells⟩ := place_eq g t x y g' t' h
  unfold CountEmpty
  rw [hcells]
  have hall : ∀ p ∈ placeTargets t x y,
      inDims g.cells p.x p.y ∧ readI g.cells p.x p.y = '.' := by
    intro p hp
    rcases List.mem_map.1 hp with ⟨q, hq, he⟩
    have h1 := (canPlace_iff g t x y).1 hcan q hq
    have hx : x + q.x = p.x := congrArg Point.x he
    have hy : y + q.y = p.y := congrArg Point.y he
    rw [← hx, ← hy]
    exact ⟨inDims_of_valid g hWF _ _ h1.1, h1.2⟩
  have := countDots_foldWrite t.id hid g.cells (placeTargets t x y)
    (placeTargets_nodup t x y hnd) hall
  rw [placeTargets_length] at this
  omega

theorem normalizePoints_nodup (l : List Point) (h : l.Nodup) :
    (normalizePoints l).Nodup := by
  cases l with
  | nil => simp [normalizePoints]
  | cons p ps =>
    rw [normalizePoints_cons_eq _ (List.cons_ne_nil p ps)]
    apply List.Nodup.map _ h
    intro a b hab
    cases a
    cases b
    simp only [Point.mk.injEq] at hab ⊢
    omega

theorem rotate90_nodup (t : Tetromino) (hnd : t.points.Nodup) :
    (Rotate90 t).points.Nodup := by
  show (normalizePoints (t.points.map rotPoint)).Nodup
  apply normalizePoints_nodup
  apply List.Nodup.map _ hnd
  intro a b hab
  cases a
  cases b
  simp only [rotPoint, Point.mk.injEq] at hab ⊢
  omega

theorem goodPiece_rotate90 (t : Tetromino) (h : goodPiece t) :
    goodPiece (Rotate90 t) := by
  refine ⟨?_, rotate90_nodup t h.2.1, h.2.2⟩
  rw [rotate90_points_length]
  exact h.1

theorem goodPiece_generateRotations (t : Tetromino) (h : goodPiece t) :
    ∀ r ∈ GenerateRotations t, goodPiece r := by
  intro r hr
  rcases generateRotations_mem t r hr with h1 | h1 | h1 | h1 <;> rw [h1]
  · exact h
  · exact goodPiece_rotate90 _ h
  · exact goodPiece_rotate90 _ (goodPiece_rotate90 _ h)
  · exact goodPiece_rotate90 _ (goodPiece_rotate90 _ (goodPiece_rotate90 _ h))

theorem candidateList_good (size : Int) (t : Tetromino) (h : goodPiece t) :
    ∀ c ∈ candidateList size (GenerateRotations t), goodPiece c.1 := by
  intro c hc
  unfold candidateList at hc
  rcases List.mem_flatMap.1 hc with ⟨r, hr, hc2⟩
  rcases List.mem_flatMap.1 hc2 with ⟨y, _, hc3⟩
  rcases List.mem_map.1 hc3 with ⟨x, _, he⟩
  rw [← he]
  exact goodPiece_generateRotations t h r hr

theorem tryCands_success_cells (rest : List Tetromino)
    (hrecIH : ∀ g', WF g' → (backtrackAux rest g').1 = true →
      4 * rest.length ≤ CountEmpty g') :
    ∀ (cs : List (Tetromino × Int × Int)) (g : Grid), WF g →
      (∀ c ∈ cs, goodPiece c.1) →
      (tryCands (backtrackAux rest) g cs).1 = true →
      4 * (rest.length + 1) ≤ CountEmpty g := by
  intro cs
  induction cs with
  | nil =>
    intro g _ _ h
    simp [tryCands] at h
  | cons c cs ih =>
    intro g hWF hcands h
    obtain ⟨r, x, y⟩ := c
    have hgood : goodPiece r := hcands (r, x, y) (by simp)
    have htail : ∀ c ∈ cs, goodPiece c.1 :=
      fun c hc => hcands c (List.mem_cons_of_mem _ hc)
    by_cases hcan : CanPlaceTetromino g r x y
    · cases hp : PlaceTetromino g r x y with
      | none =>
        simp only [tryCands, if_pos hcan, hp] at h
        exact ih g hWF htail h
      | some pr =>
        obtain ⟨g1, r1⟩ := pr
        have hWF1 := WF_place g r x y g1 r1 hp hWF
        have hce : CountEmpty g1 + 4 = CountEmpty g := by
          have := countEmpty_place g r x y g1 r1 hWF hgood.2.1 hgood.2.2 hp
          rw [hgood.1] at this
          exact this
        cases hr1 : backtrackAux rest g1 with
        | mk ok g2 =>
          cases ok with
          | true =>
            have := hrecIH g1 hWF1 (by rw [hr1])
            omega
          | false =>
            have hg2 : g2 = g1 := by
              have := backtrackAux_restore rest g1 (by rw [hr1])
              rw [hr1] at this
              exact this
            have hrg : RemoveTetromino g2 r1 = g := by
              rw [hg2]
              exact place_remove_restore g r x y g1 r1 hp
            simp only [tryCands, if_pos hcan, hp, hr1, hrg] at h
            exact ih g hWF htail h
    · simp only [tryCands, if_neg hcan] at h
      exact ih g hWF htail h

theorem backtrackAux_success_cells (ts : List Tetromino) :
    ∀ g : Grid, WF g → (∀ t ∈ ts, goodPiece t) →
      (backtrackAux ts g).1 = true → 4 * ts.length ≤ CountEmpty g := by
  induction ts with
  | nil =>
    intro g _ _ _
    simp
  | cons t rest ih =>
    intro g hWF hgood h
    simp only [backtrackAux] at h
    have := tryCands_success_cells rest
      (fun g' hwf h' => ih g' hwf
        (fun t' ht' => hgood t' (List.mem_cons_of_mem _ ht')) h')
      (candidateList g.size (GenerateRotations t)) g hWF
      (candidateList_good g.size t (hgood t (List.mem_cons_self t rest))) h
    simp only [List.length_cons]
    omega

theorem tryCandsP_eq (rest : List Tetromino)
    (hrec : ∀ g', WF g' → backtrackAuxP rest g' = backtrackAux rest g')
    (hcells : ∀ g', WF g' → (backtrackAux rest g').1 = true →
      4 * rest.length ≤ CountEmpty g') :
    ∀ (cs : List (Tetromino × Int × Int)) (g : Grid), WF g →
      (∀ c ∈ cs, goodPiece c.1) →
      tryCandsP (backtrackAuxP rest) rest.length g cs =
        tryCands (backtrackAux rest) g cs := by
  intro cs
  induction cs with
  | nil =>
    intro g _ _
    rfl
  | cons c cs ih =>
    intro g hWF hcands
    obtain ⟨r, x, y⟩ := c
    have hgood : goodPiece r := hcands (r, x, y) (by simp)
    have htail : ∀ c ∈ cs, goodPiece c.1 :=
      fun c hc => hcands c (List.mem_cons_of_mem _ hc)
    by_cases hcan : CanPlaceTetromino g r x y
    · cases hp : PlaceTetromino g r x y with
      | none =>
        rw [place_of_canPlace g r x y hcan] at hp
        exact Option.noConfusion hp
      | some pr =>
        obtain ⟨g1, r1⟩ := pr
        have hWF1 := WF_place g r x y g1 r1 hp hWF
        have hce : CountEmpty g1 + 4 = CountEmpty g := by
          have := countEmpty_place g r x y g1 r1 hWF hgood.2.1 hgood.2.2 hp
          rw [hgood.1] at this
          exact this
        cases hbt : backtrackAux rest g1 with
        | mk ok g2 =>
          by_cases hfire : (CountEmpty g : Int) - 4 < (rest.length : Int) * 4
          · have hok : ok = false := by
              cases hko : ok with
              | false => rfl
              | true =>
                rw [hko] at hbt
                have := hcells g1 hWF1 (by rw [hbt])
                omega
            rw [hok] at hbt
            have hg2 : g2 = g1 := by
              have := backtrackAux_restore rest g1 (by rw [hbt])
              rw [hbt] at this
              exact this
            have hrg : RemoveTetromino g2 r1 = g := by
              rw [hg2]
              exact place_remove_restore g r x y g1 r1 hp
            simp only [tryCandsP, tryCands, if_pos hcan, if_pos hfire, hp, hbt, hrg]
            exact ih g hWF htail
          · have hrec1 : backtrackAuxP rest g1 = backtrackAux rest g1 := hrec g1 hWF1
            cases hok : ok with
            | true =>
              rw [hok] at hbt
              simp only [tryCandsP, tryCands, if_pos hcan, if_neg hfire, hp,
                hrec1, hbt]
            | false =>
              rw [hok] at hbt
              have hg2 : g2 = g1 := by
                have := backtrackAux_restore rest g1 (by rw [hbt])
                rw [hbt] at this
                exact this
              have hrg : RemoveTetromino g2 r1 = g := by
                rw [hg2]
                exact place_remove_restore g r x y g1 r1 hp
              simp only [tryCandsP, tryCands, if_pos hcan, if_neg hfire, hp,
                hrec1, hbt, hrg]
              exact ih g hWF htail
    · simp only [tryCandsP, tryCands, if_neg hcan]
      exact ih g hWF htail

theorem backtrackAuxP_eq (ts : List Tetromino) :
    ∀ g : Grid, WF g → (∀ t ∈ ts, goodPiece t) →
      backtrackAuxP ts g = backtrackAux ts g := by
  induction ts with
  | nil =>
    intro g _ _
    rfl
  | cons t rest ih =>
    intro g hWF hgood
    have htail : ∀ t' ∈ rest, goodPiece t' :=
      fun t' ht' => hgood t' (List.mem_cons_of_mem _ ht')
    simp only [backtrackAuxP, backtrackAux]
    exact tryCandsP_eq rest
      (fun g' hwf => ih g' hwf htail)
      (fun g' hwf h' => backtrackAux_success_cells rest g' hwf htail h')
      (candidateList g.size (GenerateRotations t)) g hWF
      (candidateList_good g.size t (hgood t (List.mem_cons_self t rest)))

/-! ## Concrete fixtures for witnesses and counterexamples -/

/-- The vertical I piece, as parsed from `"#...\n#...\n#...\n#..."`. -/
def iPiece : Tetromino := ⟨'A', [⟨0, 0⟩, ⟨0, 1⟩, ⟨0, 2⟩, ⟨0, 3⟩], 1, 4, ⟨0, 0⟩⟩

/-- The L piece used by the repository's tests. -/
def lPieceA : Tetromino := ⟨'A', [⟨0, 0⟩, ⟨0, 1⟩, ⟨0, 2⟩, ⟨1, 2⟩], 2, 3, ⟨0, 0⟩⟩

/-- A 2×2 square piece labelled `A`. -/
def sqPieceA : Tetromino := ⟨'A', [⟨0, 0⟩, ⟨1, 0⟩, ⟨0, 1⟩, ⟨1, 1⟩], 2, 2, ⟨0, 0⟩⟩

/-- A 2×2 square piece labelled `B`. -/
def sqPieceB : Tetromino := ⟨'B', [⟨0, 0⟩, ⟨1, 0⟩, ⟨0, 1⟩, ⟨1, 1⟩], 2, 2, ⟨0, 0⟩⟩

/-- An empty 1×1 grid. -/
def grid1 : Grid := ⟨1, [['.']]⟩

/-- An empty 2×2 grid. -/
def grid2 : Grid := ⟨2, [['.', '.'], ['.', '.']]⟩

/-- A 3×3 board on which label `A` occupies only 3 cells and `B` none:
mid-way between a malformed `A` and a missing `B`. -/
def gridX : Grid := ⟨3, [['A', 'A', 'A'], ['.', '.', '.'], ['.', '.', '.']]⟩

/-- A 3×3 board holding exactly the four cells of piece `A`. -/
def gridOk : Grid := ⟨3, [['A', 'A', '.'], ['A', 'A', '.'], ['.', '.', '.']]⟩

/-- A 2×2 board entirely covered by cells labelled `B`. -/
def gridBB : Grid := ⟨2, [['B', 'B'], ['B', 'B']]⟩

/-! ## Claim theorems -/

/-- C4: for the single straight 4-in-a-row piece (the I shape),
`SolveOptimal` returns a successful solution of size 4. -/
theorem solveOptimal_single_I :
    (SolveOptimal [iPiece]).map (fun r => (r.success, r.size)) =
      some (true, 4) := by
  have hm : CalculateMinSquareSize [iPiece] = 4 := by
    rw [calcMinSize_single]
    decide
  unfold SolveOptimal
  rw [if_neg (by decide)]
  rw [hm]
  decide

/-- C5: whenever `PlaceTetromino` succeeds, `RemoveTetromino` of the
returned piece (same shape, anchor recorded by the place) restores the
board's cells exactly to their pre-place state. -/
theorem place_remove_inverse (g : Grid) (t : Tetromino) (x y : Int)
    (g' : Grid) (t' : Tetromino)
    (h : PlaceTetromino g t x y = some (g', t')) :
    RemoveTetromino g' t' = g :=
  place_remove_restore g t x y g' t' h

/-- Witness for C5 at a concrete board: placing the 2×2 square on the
empty 2×2 grid and removing it again yields the empty grid. -/
theorem place_remove_inverse_witness :
    RemoveTetromino ⟨2, [['A', 'A'], ['A', 'A']]⟩ sqPieceA = grid2 :=
  place_remove_inverse grid2 sqPieceA 0 0
    ⟨2, [['A', 'A'], ['A', 'A']]⟩ sqPieceA (by decide)

/-- C9: whenever the backtracking call for piece index `i` returns
without success, the board is exactly what it was on entry (every
placement on the failing branch was undone by the matching removal). -/
theorem backtrack_failure_restores (g : Grid) (ts : List Tetromino)
    (index : Nat) (h : (backtrack g ts index).1 = false) :
    (backtrack g ts index).2 = g :=
  backtrackAux_restore (ts.drop index) g h

/-- Witness for C9: the 2×2 square cannot be placed on a 1×1 grid; the
failed search leaves the grid untouched. -/
theorem backtrack_failure_restores_witness :
    (backtrack grid1 [sqPieceA] 0).1 = false ∧
      (backtrack grid1 [sqPieceA] 0).2 = grid1 :=
  ⟨by decide, backtrack_failure_restores grid1 [sqPieceA] 0 (by decide)⟩

/-- C10: `RemoveTetromino` resets every in-bounds absolute cell of the
piece (computed from its recorded position) to empty and leaves every
other cell unchanged, without checking that those cells hold the piece's
own label; concretely, removing piece `A` (recorded at the origin) from a
board covered by `B` cells erases `B`'s cells. -/
theorem removeTetromino_frame (g : Grid) (t : Tetromino) (a b : Int) :
    ((RemoveTetromino g t).size = g.size ∧
      readI (RemoveTetromino g t).cells a b =
        (if (⟨a, b⟩ : Point) ∈ GetAbsolutePoints t ∧ IsValidPosition g a b = true
         then '.' else readI g.cells a b)) ∧
      (readI gridBB.cells 1 1 = 'B' ∧
        readI (RemoveTetromino gridBB sqPieceA).cells 1 1 = '.') := by
  refine ⟨⟨remove_size g t, ?_⟩, by decide, by decide⟩
  rw [remove_cells, readI_foldWrite]
  by_cases hm : (⟨a, b⟩ : Point) ∈ GetAbsolutePoints t
  · by_cases hv : IsValidPosition g a b = true
    · by_cases hd : inDims g.cells a b
      · rw [if_pos ⟨hm, hv, hd⟩, if_pos ⟨hm, hv⟩]
      · rw [if_neg (fun hcon => hd hcon.2.2), if_pos ⟨hm, hv⟩]
        unfold inDims at hd
        unfold IsValidPosition at hv
        simp only [Bool.and_eq_true, decide_eq_true_eq] at hv
        unfold readI
        rw [if_pos ⟨hv.1.1.1, hv.1.2⟩]
        rcases Nat.lt_or_ge b.toNat g.cells.length with hb | hb
        · rw [List.getD_eq_getElem?_getD (l := g.cells.getD b.toNat []),
            List.getElem?_eq_none (by
              push_neg at hd
              exact hd hv.1.1.1 hv.1.2 hb)]
          rfl
        · have hrow : g.cells.getD b.toNat [] = [] := by
            rw [List.getD_eq_getElem?_getD, List.getElem?_eq_none hb]
            rfl
          rw [hrow]
          rfl
    · rw [if_neg (fun hcon => hv hcon.2.1), if_neg (fun hcon => hv hcon.2)]
  · rw [if_neg (fun hcon => hm hcon.1), if_neg (fun hcon => hm hcon.1)]

/-- C3: the starting grid size of the escalation equals the integer
ceiling of sqrt(4N) — characterized as the least `k` with `4N ≤ k²` —
except that for N = 1 it is `ceil(sqrt(4)) = 2` raised to at least the
single piece's width and then its height. -/
theorem calculateMinSquareSize_spec (ts : List Tetromino) (h : ts ≠ []) :
    (∀ t, ts = [t] →
        CalculateMinSquareSize ts =
          max (max ((ceilSqrtNat 4 : Nat) : Int) t.width) t.height) ∧
    (2 ≤ ts.length →
        ∃ k : Nat, CalculateMinSquareSize ts = (k : Int) ∧
          ts.length * 4 ≤ k * k ∧ ∀ m : Nat, m < k → m * m < ts.length * 4) := by
  constructor
  · intro t ht
    rw [ht, calcMinSize_single, ceilSqrtNat_four]
    norm_num
  · intro hlen
    cases ts with
    | nil => simp at hlen
    | cons t1 rest =>
      cases rest with
      | nil => simp at hlen
      | cons t2 rest2 =>
        exact ⟨ceilSqrtNat ((t1 :: t2 :: rest2).length * 4),
          calcMinSize_many t1 t2 rest2,
          (ceilSqrtNat_spec _).1, (ceilSqrtNat_spec _).2⟩

/-- Witness for C3: one L piece (2 wide, 3 tall) gives starting size 3;
two square pieces (8 cells) give starting size `ceil(sqrt 8) = 3`. -/
theorem calculateMinSquareSize_spec_witness :
    CalculateMinSquareSize [lPieceA] = 3 ∧
      CalculateMinSquareSize [sqPieceA, sqPieceB] = 3 := by
  constructor
  · have h1 := (calculateMinSquareSize_spec [lPieceA] (by decide)).1 lPieceA rfl
    rw [h1, ceilSqrtNat_four]
    decide
  · obtain ⟨k, hk, hk1, hk2⟩ :=
      (calculateMinSquareSize_spec [sqPieceA, sqPieceB] (by decide)).2 (by decide)
    have hk3 : k = 3 := by
      have hno4 : ¬4 ≤ k := fun h4 => by
        have := hk2 3 (by omega)
        simp at this
      have hno2 : ¬k ≤ 2 := fun h2 => by
        have hsq : k * k ≤ 2 * 2 := Nat.mul_le_mul h2 h2
        simp at hk1
        omega
      omega
    rw [hk, hk3]
    rfl

/-- C6: for a piece with exactly 4 cells in canonical (normalized) form,
`GenerateRotations` returns 1–4 orientations, each with 4 cells and the
source's label, drawn from the four quarter-turn iterates in 0°, 90°,
180°, 270° order keeping only the first occurrence of each distinct
shape key; and four applications of `Rotate90` reproduce the original
shape key. -/
theorem generateRotations_spec (t : Tetromino)
    (hlen : t.points.length = 4)
    (hnx : minX t.points = 0) (hny : minY t.points = 0) :
    (1 ≤ (GenerateRotations t).length ∧ (GenerateRotations t).length ≤ 4) ∧
    (∀ r ∈ GenerateRotations t, r.points.length = 4 ∧ r.id = t.id) ∧
    (GenerateRotations t).Sublist
      [t, Rotate90 t, Rotate90 (Rotate90 t),
        Rotate90 (Rotate90 (Rotate90 t))] ∧
    (GenerateRotations t).map ShapeKey =
      firstDedup [ShapeKey t, ShapeKey (Rotate90 t),
        ShapeKey (Rotate90 (Rotate90 t)),
        ShapeKey (Rotate90 (Rotate90 (Rotate90 t)))] ∧
    ShapeKey (Rotate90 (Rotate90 (Rotate90 (Rotate90 t)))) = ShapeKey t := by
  refine ⟨generateRotations_length t, ?_, generateRotations_sublist t,
    generateRotations_keys t, ?_⟩
  · intro r hr
    rcases generateRotations_mem t r hr with h1 | h1 | h1 | h1 <;> rw [h1] <;>
      exact ⟨by simp [rotate90_points_length, hlen], rfl⟩
  · have hne : t.points ≠ [] := by
      intro hc
      rw [hc] at hlen
      simp at hlen
    have hpts := rot4_points t hne hnx hny
    unfold ShapeKey
    rw [hpts]

/-- Witness for C6 at the L piece: four distinct orientations, and the
fourth rotation's shape key matches the original's. -/
theorem generateRotations_spec_witness :
    (GenerateRotations lPieceA).length = 4 ∧
      ShapeKey (Rotate90 (Rotate90 (Rotate90 (Rotate90 lPieceA)))) =
        ShapeKey lPieceA := by
  constructor
  · decide
  · exact (generateRotations_spec lPieceA (by decide) (by decide)
      (by decide)).2.2.2.2

/-- C8: `SolveTetris` hands the backtracking search the input pieces
re-ordered by `pieceLE` — bounding-box area descending, ties by width
then height descending — and that order is a sorted permutation of the
input. -/
theorem solveTetris_sorted (ts : List Tetromino) (gridSize : Int)
    (h : ts ≠ []) (hs : 0 < gridSize) :
    ∃ g0 : Grid, NewGrid gridSize = some g0 ∧
      SolveTetris ts gridSize =
        some ⟨some (backtrackAux (sortTetrominoes ts) g0).2,
          (backtrackAux (sortTetrominoes ts) g0).1, gridSize⟩ ∧
      (sortTetrominoes ts).Perm ts ∧
      List.Sorted pieceLE (sortTetrominoes ts) := by
  refine ⟨⟨gridSize, List.replicate gridSize.toNat
    (List.replicate gridSize.toNat '.')⟩, ?_, ?_, ?_, ?_⟩
  · unfold NewGrid
    rw [if_neg (by omega)]
  · unfold SolveTetris
    rw [if_neg (by simp [List.isEmpty_iff, h])]
    unfold NewGrid
    rw [if_neg (by omega)]
  · exact List.perm_insertionSort pieceLE ts
  · exact List.sorted_insertionSort pieceLE ts

/-- Witness for C8 on a concrete two-piece input and a 3×3 grid. -/
theorem solveTetris_sorted_witness :
    ∃ g0 : Grid, NewGrid 3 = some g0 ∧
      SolveTetris [iPiece, sqPieceA] 3 =
        some ⟨some (backtrackAux (sortTetrominoes [iPiece, sqPieceA]) g0).2,
          (backtrackAux (sortTetrominoes [iPiece, sqPieceA]) g0).1, 3⟩ ∧
      (sortTetrominoes [iPiece, sqPieceA]).Perm [iPiece, sqPieceA] ∧
      List.Sorted pieceLE (sortTetrominoes [iPiece, sqPieceA]) :=
  solveTetris_sorted [iPiece, sqPieceA] 3 (by decide) (by decide)

/-- C7 counterexample: on `gridX`, piece `A`'s label occupies 3 cells and
piece `B`'s label occurs nowhere, yet validation reports
`MalformedPlacement` for `A` — not `MissingPiece` — because the piece
loop stops at the first offender in input order. -/
theorem validateSolution_counterexample :
    (∃ t ∈ [sqPieceA, sqPieceB], countLabel gridX t.id = 0) ∧
      ValidateSolution gridX [sqPieceA, sqPieceB] =
        some (VError.malformedPlacement 'A' 3) ∧
      ∀ c : Char, VError.malformedPlacement 'A' 3 ≠ VError.missingPiece c := by
  refine ⟨by decide, by decide, fun c => by simp⟩

/-- C7 (amended): validation succeeds iff every input piece's label
occurs exactly 4 times on the board and the number of distinct non-empty
labels equals the number of pieces.  On failure the error reflects the
first offending piece in input order: `MissingPiece c` is only reported
for an input label occurring nowhere, `MalformedPlacement c n` only for
a present label with count `n ∉ {0, 4}`, and `ExtraPieces` only when all
pieces count exactly 4 but the distinct-label count differs from the
piece count. -/
theorem validateSolution_spec (g : Grid) (ts : List Tetromino) :
    (ValidateSolution g ts = none ↔
      (∀ t ∈ ts, t.id ≠ '.' ∧ countLabel g t.id = 4) ∧
        distinctLabels g = ts.length) ∧
    (∀ c, ValidateSolution g ts = some (VError.missingPiece c) →
      ∃ t ∈ ts, t.id = c ∧ (c = '.' ∨ countLabel g c = 0)) ∧
    (∀ c n, ValidateSolution g ts = some (VError.malformedPlacement c n) →
      ∃ t ∈ ts, t.id = c ∧ countLabel g c = n ∧ n ≠ 4 ∧ n ≠ 0 ∧ c ≠ '.') ∧
    (∀ a b, ValidateSolution g ts = some (VError.extraPieces a b) →
      a = distinctLabels g ∧ b = ts.length ∧ a ≠ b ∧
        ∀ t ∈ ts, t.id ≠ '.' ∧ countLabel g t.id = 4) :=
  ⟨validate_none_iff g ts,
   fun c => validate_missing_sound g ts c,
   fun c n => validate_malformed_sound g ts c n,
   fun a b => validate_extra_sound g ts a b⟩

/-- Witness for C7: a correctly covered board validates, and the
malformed-placement branch fires on the counterexample board. -/
theorem validateSolution_spec_witness :
    ValidateSolution gridOk [sqPieceA] = none ∧
      ∃ t ∈ [sqPieceA, sqPieceB], t.id = 'A' ∧
        countLabel gridX 'A' = 3 ∧ (3 : Nat) ≠ 4 ∧ (3 : Nat) ≠ 0 ∧ 'A' ≠ '.' :=
  ⟨(validateSolution_spec gridOk [sqPieceA]).1.2 ⟨by decide, by decide⟩,
   (validateSolution_spec gridX [sqPieceA, sqPieceB]).2.2.1 'A' 3 (by decide)⟩

theorem solveLoop_cons (ts : List Tetromino) (s : Int) (ss : List Int)
    (r : Result) (hr : SolveTetris ts s = some r) :
    solveLoop ts (s :: ss) =
      if r.success then some (some r) else solveLoop ts ss := by
  have hstep : solveLoop ts (s :: ss) =
      match SolveTetris ts s with
      | none => none
      | some r => if r.success then some (some r) else solveLoop ts ss := rfl
  rw [hstep, hr]

/-- C1: for non-empty input, `SolveOptimal` returns (without error) the
result of the first successful `SolveTetris` attempt among the sizes
`minSize + 0 … minSize + 4` tried in ascending order; if all five fail it
returns the result of one more attempt at `minSize + 4`, whose success
flag is false. -/
theorem solveOptimal_escalation (ts : List Tetromino) (h : ts ≠ []) :
    ∃ r : Result, SolveOptimal ts = some r ∧
      ((∃ k : Int, 0 ≤ k ∧ k ≤ 4 ∧
          SolveTetris ts (CalculateMinSquareSize ts + k) = some r ∧
          r.success = true ∧
          ∀ j : Int, 0 ≤ j → j < k → ∀ r' : Result,
            SolveTetris ts (CalculateMinSquareSize ts + j) = some r' →
              r'.success = false) ∨
        ((∀ k : Int, 0 ≤ k → k ≤ 4 → ∀ r' : Result,
            SolveTetris ts (CalculateMinSquareSize ts + k) = some r' →
              r'.success = false) ∧
          SolveTetris ts (CalculateMinSquareSize ts + 4) = some r ∧
          r.success = false)) := by
  have hne : ¬ts.isEmpty = true := by simp [List.isEmpty_iff, h]
  have hm1 : 1 ≤ CalculateMinSquareSize ts := calcMinSize_ge_one ts h
  set m := CalculateMinSquareSize ts with hm
  obtain ⟨r0, h0, _⟩ := solveTetris_exists ts h m (by omega)
  obtain ⟨r1, h1, _⟩ := solveTetris_exists ts h (m + 1) (by omega)
  obtain ⟨r2, h2, _⟩ := solveTetris_exists ts h (m + 2) (by omega)
  obtain ⟨r3, h3, _⟩ := solveTetris_exists ts h (m + 3) (by omega)
  obtain ⟨r4, h4, _⟩ := solveTetris_exists ts h (m + 4) (by omega)
  have h0' : SolveTetris ts (m + 0) = some r0 := by rw [add_zero]; exact h0
  by_cases s0 : r0.success = true
  · refine ⟨r0, ?_, Or.inl ⟨0, by omega, by omega, h0', s0, ?_⟩⟩
    · unfold SolveOptimal
      rw [if_neg hne]
      dsimp only
      rw [solveLoop_cons ts m _ r0 h0, if_pos s0]
    · intro j hj0 hj1
      omega
  · have s0' : r0.success = false := by simpa using s0
    by_cases s1 : r1.success = true
    · refine ⟨r1, ?_, Or.inl ⟨1, by omega, by omega, h1, s1, ?_⟩⟩
      · unfold SolveOptimal
        rw [if_neg hne]
        dsimp only
        rw [solveLoop_cons ts m _ r0 h0, if_neg (by simp [s0']),
          solveLoop_cons ts (m + 1) _ r1 h1, if_pos s1]
      · intro j hj0 hj1 r' hr'
        have hj : j = 0 := by omega
        rw [hj] at hr'
        rw [h0'] at hr'
        injection hr' with hr'
        rw [← hr']
        exact s0'
    · have s1' : r1.success = false := by simpa using s1
      by_cases s2 : r2.success = true
      · refine ⟨r2, ?_, Or.inl ⟨2, by omega, by omega, h2, s2, ?_⟩⟩
        · unfold SolveOptimal
          rw [if_neg hne]
          dsimp only
          rw [solveLoop_cons ts m _ r0 h0, if_neg (by simp [s0']),
            solveLoop_cons ts (m + 1) _ r1 h1, if_neg (by simp [s1']),
            solveLoop_cons ts (m + 2) _ r2 h2, if_pos s2]
        · intro j hj0 hj1 r' hr'
          have hj : j = 0 ∨ j = 1 := by omega
          rcases hj with hj | hj <;> rw [hj] at hr'
          · rw [h0'] at hr'
            injection hr' with hr'
            rw [← hr']
            exact s0'
          · rw [h1] at hr'
            injection hr' with hr'
            rw [← hr']
            exact s1'
      · have s2' : r2.success = false := by simpa using s2
        by_cases s3 : r3.success = true
        · refine ⟨r3, ?_, Or.inl ⟨3, by omega, by omega, h3, s3, ?_⟩⟩
          · unfold SolveOptimal
            rw [if_neg hne]
            dsimp only
            rw [solveLoop_cons ts m _ r0 h0, if_neg (by simp [s0']),
              solveLoop_cons ts (m + 1) _ r1 h1, if_neg (by simp [s1']),
              solveLoop_cons ts (m + 2) _ r2 h2, if_neg (by simp [s2']),
              solveLoop_cons ts (m + 3) _ r3 h3, if_pos s3]
          · intro j hj0 hj1 r' hr'
            have hj : j = 0 ∨ j = 1 ∨ j = 2 := by omega
            rcases hj with hj | hj | hj <;> rw [hj] at hr'
            · rw [h0'] at hr'
              injection hr' with hr'
              rw [← hr']
              exact s0'
            · rw [h1] at hr'
              injection hr' with hr'
              rw [← hr']
              exact s1'
            · rw [h2] at hr'
              injection hr' with hr'
              rw [← hr']
              exact s2'
        · have s3' : r3.success = false := by simpa using s3
          by_cases s4 : r4.success = true
          · refine ⟨r4, ?_, Or.inl ⟨4, by omega, by omega, h4, s4, ?_⟩⟩
            · unfold SolveOptimal
              rw [if_neg hne]
              dsimp only
              rw [solveLoop_cons ts m _ r0 h0, if_neg (by simp [s0']),
                solveLoop_cons ts (m + 1) _ r1 h1, if_neg (by simp [s1']),
                solveLoop_cons ts (m + 2) _ r2 h2, if_neg (by simp [s2']),
                solveLoop_cons ts (m + 3) _ r3 h3, if_neg (by simp [s3']),
                solveLoop_cons ts (m + 4) _ r4 h4, if_pos s4]
            · intro j hj0 hj1 r' hr'
              have hj : j = 0 ∨ j = 1 ∨ j = 2 ∨ j = 3 := by omega
              rcases hj with hj | hj | hj | hj <;> rw [hj] at hr'
              · rw [h0'] at hr'
                injection hr' with hr'
                rw [← hr']
                exact s0'
              · rw [h1] at hr'
                injection hr' with hr'
                rw [← hr']
                exact s1'
              · rw [h2] at hr'
                injection hr' with hr'
                rw [← hr']
                exact s2'
              · rw [h3] at hr'
                injection hr' with hr'
                rw [← hr']
                exact s3'
          · have s4' : r4.success = false := by simpa using s4
            refine ⟨r4, ?_, Or.inr ⟨?_, h4, s4'⟩⟩
            · unfold SolveOptimal
              rw [if_neg hne]
              dsimp only
              rw [solveLoop_cons ts m _ r0 h0, if_neg (by simp [s0']),
                solveLoop_cons ts (m + 1) _ r1 h1, if_neg (by simp [s1']),
                solveLoop_cons ts (m + 2) _ r2 h2, if_neg (by simp [s2']),
                solveLoop_cons ts (m + 3) _ r3 h3, if_neg (by simp [s3']),
                solveLoop_cons ts (m + 4) _ r4 h4, if_neg (by simp [s4'])]
              exact h4
            · intro k hk0 hk4 r' hr'
              have hk : k = 0 ∨ k = 1 ∨ k = 2 ∨ k = 3 ∨ k = 4 := by omega
              rcases hk with hk | hk | hk | hk | hk <;> rw [hk] at hr'
              · rw [h0'] at hr'
                injection hr' with hr'
                rw [← hr']
                exact s0'
              · rw [h1] at hr'
                injection hr' with hr'
                rw [← hr']
                exact s1'
              · rw [h2] at hr'
                injection hr' with hr'
                rw [← hr']
                exact s2'
              · rw [h3] at hr'
                injection hr' with hr'
                rw [← hr']
                exact s3'
              · rw [h4] at hr'
                injection hr' with hr'
                rw [← hr']
                exact s4'

/-- Witness for C1 at the single I piece: the very first attempted size
(minSize 4) succeeds. -/
theorem solveOptimal_escalation_witness :
    ∃ r : Result, SolveOptimal [iPiece] = some r ∧
      ((∃ k : Int, 0 ≤ k ∧ k ≤ 4 ∧
          SolveTetris [iPiece] (CalculateMinSquareSize [iPiece] + k) = some r ∧
          r.success = true ∧
          ∀ j : Int, 0 ≤ j → j < k → ∀ r' : Result,
            SolveTetris [iPiece] (CalculateMinSquareSize [iPiece] + j) = some r' →
              r'.success = false) ∨
        ((∀ k : Int, 0 ≤ k → k ≤ 4 → ∀ r' : Result,
            SolveTetris [iPiece] (CalculateMinSquareSize [iPiece] + k) = some r' →
              r'.success = false) ∧
          SolveTetris [iPiece] (CalculateMinSquareSize [iPiece] + 4) = some r ∧
          r.success = false)) :=
  solveOptimal_escalation [iPiece] (by decide)

/-- C2 counterexample: on a 2×2 grid with two square pieces, the search
places the first square — at which point `emptyCellsAfterThisPlacement =
countEmpty() - 4 = 0` is less than `remainingPieces * 4 = 4` — and still
recurses into the next piece: the instrumented search records a
recursive call entered while the spec's pruning condition held, and its
outcome coincides with the plain search's. -/
theorem backtrack_prune_counterexample :
    (backtrackAuxT [sqPieceA, sqPieceB] grid2).2.2 = true ∧
      (backtrackAuxT [sqPieceA, sqPieceB] grid2).1 =
        (backtrackAux [sqPieceA, sqPieceB] grid2).1 ∧
      (backtrackAuxT [sqPieceA, sqPieceB] grid2).2.1 =
        (backtrackAux [sqPieceA, sqPieceB] grid2).2 :=
  ⟨by decide, by decide, by decide⟩

/-- C2 (amended): the engine performs no cell-count pruning — every
placement that passes `CanPlaceTetromino` is recursed into — but the
omission cannot change the outcome: on a well-formed grid with
well-formed pieces, the search extended with the spec's pruning rule
returns exactly the same success flag and final board as the code's
unpruned search, because the prune only skips placements whose recursion
is guaranteed to fail for lack of empty cells. -/
theorem backtrack_prune_equivalence (ts : List Tetromino) (g : Grid)
    (hWF : WF g) (hgood : ∀ t ∈ ts, goodPiece t) :
    backtrackAuxP ts g = backtrackAux ts g :=
  backtrackAuxP_eq ts g hWF hgood

/-- Witness for the C2 equivalence on the counterexample input. -/
theorem backtrack_prune_equivalence_witness :
    backtrackAuxP [sqPieceA, sqPieceB] grid2 =
      backtrackAux [sqPieceA, sqPieceB] grid2 :=
  backtrack_prune_equivalence [sqPieceA, sqPieceB] grid2 (by decide) (by decide)

end TetrisOpt
